import Mathlib

/-!
Verification of the Council1901 backend core (src/backend/src/lib.rs).

The Rust source is a Cloudflare-Workers service.  We shallowly embed its pure
core and its store-mutating handlers:

* Rust `String` / `&str` values are modelled as `Str := List Char` (the keys
  and payloads handled by this service are ASCII, so character-wise
  lexicographic order coincides with Rust's byte-wise order).
* HMAC-SHA256 (external crates `hmac`/`sha2`) is modelled as a parameter
  `mac : Str → Str → List Nat` mapping (key, message) to a byte list;
  `hex::encode` is embedded concretely as `hexEncode`.  Likewise the SHA-256
  digest used by `conversation_id` is a parameter `sha : Str → List Nat`.
* The Workers KV store (external collaborator, get/put/prefix-list only) is
  modelled as a typed record `KV`; the prefix-list result of
  `GET /api/messages` is passed to the handler as an explicit key list, since
  sorted prefix listing is an assumed contract on the store.
-/

abbrev Str := List Char

def str (s : String) : Str := s.data

/-- The closed country set, from `valid_country` in lib.rs (lines 16-21). -/
def countries : List Str :=
  [str "england", str "france", str "germany", str "italy",
   str "austria", str "russia", str "turkey"]

/-- `valid_country` (lib.rs lines 16-21): membership in the closed set. -/
def valid_country (s : Str) : Bool := countries.contains s

-- ==================== Byte-wise lexicographic order on strings ====================

/-- Strict lexicographic order on `Str`, mirroring Rust's `Ord` for `str`
(byte-wise; all keys compared by the service are ASCII). -/
def strLt : Str → Str → Bool
  | [], [] => false
  | [], _ :: _ => true
  | _ :: _, [] => false
  | a :: as, b :: bs => if a < b then true else if b < a then false else strLt as bs

def strLe (a b : Str) : Bool := !(strLt b a)

theorem strLt_irrefl (a : Str) : strLt a a = false := by
  induction a with
  | nil => rfl
  | cons x xs ih => simp [strLt, ih]

theorem strLt_asymm : ∀ a b : Str, strLt a b = true → strLt b a = false
  | [], [], h => by simp [strLt] at h
  | [], _ :: _, _ => rfl
  | _ :: _, [], h => by simp [strLt] at h
  | a :: as, b :: bs, h => by
    by_cases hab : a < b
    · simp [strLt, hab, asymm hab]
    · by_cases hba : b < a
      · simp [strLt, hab, hba] at h
      · simp [strLt, hab, hba] at h ⊢
        exact strLt_asymm as bs h

theorem strLt_connex : ∀ a b : Str, strLt a b = false → strLt b a = false → a = b
  | [], [], _, _ => rfl
  | [], _ :: _, h, _ => by simp [strLt] at h
  | _ :: _, [], _, h => by simp [strLt] at h
  | a :: as, b :: bs, h1, h2 => by
    by_cases hab : a < b
    · simp [strLt, hab] at h1
    · by_cases hba : b < a
      · simp [strLt, hba, asymm hba] at h2
      · have hab' : a = b := le_antisymm (not_lt.mp hba) (not_lt.mp hab)
        subst hab'
        simp [strLt, lt_irrefl] at h1 h2
        simp [strLt_connex as bs h1 h2]

theorem strLt_trans : ∀ a b c : Str, strLt a b = true → strLt b c = true → strLt a c = true
  | [], b, [], h1, h2 => by
    cases b with
    | nil => simp [strLt] at h1
    | cons x xs => simp [strLt] at h2
  | [], _, _ :: _, _, _ => rfl
  | _ :: _, [], _, h1, _ => by simp [strLt] at h1
  | _ :: _, _ :: _, [], _, h2 => by simp [strLt] at h2
  | a :: as, b :: bs, c :: cs, h1, h2 => by
    by_cases hab : a < b
    · by_cases hbc : b < c
      · simp [strLt, lt_trans hab hbc]
      · by_cases hcb : c < b
        · simp [strLt, hbc, hcb] at h2
        · have : b = c := le_antisymm (not_lt.mp hcb) (not_lt.mp hbc)
          subst this
          simp [strLt, hab]
    · by_cases hba : b < a
      · simp [strLt, hab, hba] at h1
      · have : a = b := le_antisymm (not_lt.mp hba) (not_lt.mp hab)
        subst this
        simp [strLt, lt_irrefl] at h1
        by_cases hac : a < c
        · simp [strLt, hac]
        · by_cases hca : c < a
          · simp [strLt, hca, asymm hca] at h2
          · simp [strLt, hac, hca] at h2 ⊢
            exact strLt_trans as bs cs h1 h2

/-- A strict comparison at equal lengths is preserved by appending suffixes. -/
theorem strLt_append_of_lt : ∀ a b as bs : Str, a.length = b.length →
    strLt a b = true → strLt (a ++ as) (b ++ bs) = true
  | [], [], _, _, _, h => by simp [strLt] at h
  | [], _ :: _, _, _, hl, _ => by simp at hl
  | _ :: _, [], _, _, hl, _ => by simp at hl
  | a :: as', b :: bs', as, bs, hl, h => by
    by_cases hab : a < b
    · simp [strLt, hab]
    · by_cases hba : b < a
      · simp [strLt, hab, hba] at h
      · simp [strLt, hab, hba] at h ⊢
        exact strLt_append_of_lt as' bs' as bs (by simpa using hl) h

/-- Comparison after a common left factor reduces to comparison of the tails. -/
theorem strLt_append_left : ∀ xs a b : Str, strLt (xs ++ a) (xs ++ b) = strLt a b
  | [], _, _ => rfl
  | x :: xs, a, b => by simp [strLt, strLt_append_left xs a b]

theorem strLe_refl (a : Str) : strLe a a = true := by simp [strLe, strLt_irrefl]

-- ==================== Token parsing: split at the last delimiter ====================

/-- `rfind('|')`-based split used by `verify_token` (lib.rs lines 44-49):
returns the text before and after the LAST `'|'`, or `none` if there is none. -/
def splitLastBar : Str → Option (Str × Str)
  | [] => none
  | c :: cs =>
    match splitLastBar cs with
    | some (pre, post) => some (c :: pre, post)
    | none => if c = '|' then some ([], cs) else none

theorem splitLastBar_eq_none : ∀ l : Str, splitLastBar l = none ↔ '|' ∉ l
  | [] => by simp [splitLastBar]
  | c :: cs => by
    rcases h : splitLastBar cs with _ | ⟨pre, post⟩
    · have hcs : '|' ∉ cs := (splitLastBar_eq_none cs).mp h
      by_cases hc : c = '|'
      · subst hc; simp [splitLastBar, h]
      · simp [splitLastBar, h, hc, hcs, Ne.symm hc]
    · have hmem : '|' ∈ cs := by
        by_contra hno
        rw [(splitLastBar_eq_none cs).mpr hno] at h
        exact Option.noConfusion h
      simp [splitLastBar, h, hmem]

theorem splitLastBar_recon : ∀ l pre post : Str,
    splitLastBar l = some (pre, post) → l = pre ++ '|' :: post
  | [], pre, post, h => by simp [splitLastBar] at h
  | c :: cs, pre, post, h => by
    rcases hcs : splitLastBar cs with _ | ⟨pre', post'⟩
    · by_cases hc : c = '|'
      · subst hc
        simp [splitLastBar, hcs] at h
        simp [← h.1, ← h.2]
      · simp [splitLastBar, hcs, hc] at h
    · simp only [splitLastBar, hcs, Option.some.injEq, Prod.mk.injEq] at h
      obtain ⟨h1, h2⟩ := h
      subst h1
      subst h2
      have := splitLastBar_recon cs pre' post' hcs
      simp [this]

/-- If the suffix after the last written `'|'` contains no `'|'`, the split
recovers exactly the two sides (the left side may itself contain `'|'`). -/
theorem splitLastBar_append : ∀ pre post : Str, '|' ∉ post →
    splitLastBar (pre ++ '|' :: post) = some (pre, post)
  | [], post, h => by
    have : splitLastBar post = none := (splitLastBar_eq_none post).mpr h
    simp [splitLastBar, this]
  | c :: pre, post, h => by
    have := splitLastBar_append pre post h
    simp [splitLastBar, this]

-- ==================== Hex encoding and digests ====================

/-- `hex::encode` over a byte list (external `hex` crate): two lowercase hex
characters per byte, most significant nibble first. -/
def hexEncode : List Nat → Str
  | [] => []
  | b :: bs => Nat.digitChar (b / 16 % 16) :: Nat.digitChar (b % 16) :: hexEncode bs

def hexAlpha : Str := str "0123456789abcdef"

theorem digitChar_mem_hexAlpha (n : Nat) (h : n < 16) : Nat.digitChar n ∈ hexAlpha := by
  revert h
  revert n
  decide

theorem hexEncode_subset_hexAlpha : ∀ bs : List Nat, ∀ x ∈ hexEncode bs, x ∈ hexAlpha
  | [], x, hx => by simp [hexEncode] at hx
  | b :: bs, x, hx => by
    simp only [hexEncode, List.mem_cons] at hx
    rcases hx with h | h | h
    · exact h ▸ digitChar_mem_hexAlpha _ (Nat.mod_lt _ (by decide))
    · exact h ▸ digitChar_mem_hexAlpha _ (Nat.mod_lt _ (by decide))
    · exact hexEncode_subset_hexAlpha bs x h

theorem bar_not_mem_hexEncode (bs : List Nat) : '|' ∉ hexEncode bs := by
  intro h
  have := hexEncode_subset_hexAlpha bs _ h
  simp [hexAlpha, str] at this

/-- No string over the hex alphabet is a valid country (each country name
contains a character outside `0-9a-f`). -/
theorem hex_not_country (p : Str) (hp : ∀ x ∈ p, x ∈ hexAlpha) :
    valid_country p = false := by
  by_contra h
  have hmem : p ∈ countries := by
    have : valid_country p = true := by
      revert h; cases valid_country p <;> simp
    simpa [valid_country, List.contains_iff_exists_mem_beq, beq_iff_eq] using this
  have hbad : ∀ q ∈ countries, ¬ (∀ x ∈ q, x ∈ hexAlpha) := by decide
  exact hbad p hmem hp

-- ==================== Token Codec (lib.rs lines 27-61) ====================

/-- `compute_hmac_hex` (lib.rs lines 27-32): keyed digest of
`room_id ++ ":" ++ country`, hex-encoded.  The HMAC-SHA256 primitive itself
(external `hmac`/`sha2` crates) is the parameter `mac`. -/
def compute_hmac_hex (mac : Str → Str → List Nat) (secret room_id country : Str) : Str :=
  hexEncode (mac secret (room_id ++ ':' :: country))

/-- `make_token` (lib.rs lines 34-36): `{room_id}|{country}|{hmac_hex}`. -/
def make_token (mac : Str → Str → List Nat) (secret room_id country : Str) : Str :=
  room_id ++ '|' :: country ++ '|' :: compute_hmac_hex mac secret room_id country

structure Claims where
  room_id : Str
  country : Str
deriving DecidableEq

/-- `verify_token` (lib.rs lines 43-61): split from the right twice, validate
the country, recompute the digest and require equality. -/
def verify_token (mac : Str → Str → List Nat) (secret token : Str) : Option Claims :=
  match splitLastBar token with
  | none => none
  | some (rest, hmac_part) =>
    match splitLastBar rest with
    | none => none
    | some (room_id_part, country_part) =>
      if valid_country country_part = false then none
      else if compute_hmac_hex mac secret room_id_part country_part ≠ hmac_part then none
      else some ⟨room_id_part, country_part⟩

theorem countries_bar_free : ∀ c ∈ countries, '|' ∉ c := by decide

/-- Round-trip core: verifying a freshly issued token recovers its claims. -/
theorem verify_make_token (mac : Str → Str → List Nat) (secret room c : Str)
    (hc : valid_country c = true) :
    verify_token mac secret (make_token mac secret room c) = some ⟨room, c⟩ := by
  have hd : '|' ∉ compute_hmac_hex mac secret room c := bar_not_mem_hexEncode _
  have hcbar : '|' ∉ c := countries_bar_free c (by
    simpa [valid_country, List.contains_iff_exists_mem_beq, beq_iff_eq] using hc)
  have hassoc : make_token mac secret room c
      = (room ++ '|' :: c) ++ '|' :: compute_hmac_hex mac secret room c := by
    simp [make_token]
  simp only [verify_token, hassoc, splitLastBar_append _ _ hd, splitLastBar_append _ _ hcbar]
  simp [hc]

-- ==================== Single-character edits ====================

/-- Number of positions (within the common length) at which two strings differ. -/
def hamming : Str → Str → Nat
  | a :: as, b :: bs => (if a = b then 0 else 1) + hamming as bs
  | _, _ => 0

theorem hamming_self : ∀ a : Str, hamming a a = 0
  | [] => rfl
  | _ :: as => by simp [hamming, hamming_self as]

theorem hamming_ne {a b : Str} (h : hamming a b = 1) : a ≠ b := by
  intro he
  rw [he, hamming_self] at h
  exact Nat.noConfusion h

theorem hamming_set : ∀ (l : Str) (i : Nat) (ch : Char), (hi : i < l.length) →
    ch ≠ l.get ⟨i, hi⟩ → hamming l (l.set i ch) = 1
  | [], i, ch, hi, _ => by simp at hi
  | x :: xs, 0, ch, hi, hne => by
    simp [List.get] at hne
    simp [List.set, hamming, Ne.symm hne, hamming_self]
  | x :: xs, i + 1, ch, hi, hne => by
    simp [List.set, hamming]
    exact hamming_set xs i ch (by simpa using hi) (by simpa [List.get] using hne)

theorem set_ne {l : Str} {i : Nat} {ch : Char} (hi : i < l.length)
    (hne : ch ≠ l.get ⟨i, hi⟩) : l.set i ch ≠ l :=
  fun h => hamming_ne (hamming_set l i ch hi hne) h.symm

/-- No single-character substitution maps one element of the closed country set
to (another) element of it: distinct countries differ in at least two
positions within their common length, or have different lengths. -/
theorem countries_hamming : ∀ c1 ∈ countries, ∀ c2 ∈ countries,
    c1 = c2 ∨ hamming c1 c2 ≠ 1 := by decide

theorem valid_country_iff (s : Str) : valid_country s = true ↔ s ∈ countries := by
  simp [valid_country, List.contains_iff_exists_mem_beq, beq_iff_eq]

theorem valid_country_set_ne (c : Str) (hc : valid_country c = true)
    (i : Nat) (ch : Char) (hi : i < c.length) (hne : ch ≠ c.get ⟨i, hi⟩) :
    valid_country (c.set i ch) = false := by
  by_contra h
  have hmem : c.set i ch ∈ countries := by
    rw [← valid_country_iff]
    revert h; cases valid_country (c.set i ch) <;> simp
  have hone : hamming c (c.set i ch) = 1 := hamming_set c i ch hi hne
  rcases countries_hamming c ((valid_country_iff c).mp hc) _ hmem with he | hn
  · exact set_ne hi hne he.symm
  · exact hn hone

/-- No proper suffix of a country name is a country name (country names have
length at most 7). -/
theorem countries_drop_invalid : ∀ c ∈ countries, ∀ j < 7,
    valid_country (c.drop (j + 1)) = false := by decide

theorem countries_nonempty : ∀ c ∈ countries, c ≠ [] := by decide

theorem countries_colon_free : ∀ c ∈ countries, ':' ∉ c := by decide

theorem countries_length_le : ∀ c ∈ countries, c.length ≤ 7 := by decide

-- ==================== Sorting participant lists ====================

/-- The order used to canonicalise participant lists: Rust `Vec::sort` on
`String` sorts by the byte-wise lexicographic order. -/
def strLeP (a b : Str) : Prop := strLe a b = true

instance : DecidableRel strLeP := fun a b => inferInstanceAs (Decidable (_ = true))

instance : IsTotal Str strLeP where
  total a b := by
    by_cases h : strLt b a = true
    · right
      simp [strLeP, strLe, strLt_asymm b a h]
    · left
      simp [strLeP, strLe]
      revert h; cases strLt b a <;> simp

instance : IsTrans Str strLeP where
  trans a b c hab hbc := by
    simp only [strLeP, strLe, Bool.not_eq_true', Bool.not_eq_false] at hab hbc ⊢
    by_contra h
    have hca : strLt c a = true := by revert h; cases strLt c a <;> simp
    by_cases hbceq : b = c
    · subst hbceq
      exact absurd hca (by simp [hab])
    · have hbclt : strLt b c = true := by
        by_contra h'
        have h'' : strLt b c = false := by revert h'; cases strLt b c <;> simp
        exact hbceq (strLt_connex b c h'' hbc)
      exact absurd (strLt_trans b c a hbclt hca) (by simp [hab])

instance : IsAntisymm Str strLeP where
  antisymm a b hab hba := by
    simp only [strLeP, strLe, Bool.not_eq_true', Bool.not_eq_false] at hab hba
    exact strLt_connex a b hba hab

/-- Model of `sorted.sort()` (lib.rs line 73 and 268): a sorted permutation;
with a total antisymmetric order this determines the result uniquely, so any
correct sort (Rust's included) yields the same list. -/
def sortStr (l : List Str) : List Str := List.insertionSort strLeP l

theorem sortStr_perm (l : List Str) : (sortStr l).Perm l := List.perm_insertionSort _ l

theorem sortStr_eq_of_perm {l1 l2 : List Str} (h : l1.Perm l2) : sortStr l1 = sortStr l2 :=
  List.eq_of_perm_of_sorted ((sortStr_perm l1).trans (h.trans (sortStr_perm l2).symm))
    (List.sorted_insertionSort _ l1) (List.sorted_insertionSort _ l2)

-- ==================== Conversation id derivation (lib.rs lines 71-76) ====================

/-- `sorted.join(":")`. -/
def joinColon : List Str → Str
  | [] => []
  | [x] => x
  | x :: xs => x ++ ':' :: joinColon xs

/-- The canonical string fed to the SHA-256 digest in `conversation_id`
(lib.rs line 74): `format!("{}:{}", room_id, sorted.join(":"))`. -/
def canonicalInput (room_id : Str) (participants : List Str) : Str :=
  room_id ++ ':' :: joinColon (sortStr participants)

/-- `conversation_id` (lib.rs lines 71-76): hex of the first 16 bytes of the
SHA-256 digest of the canonical string.  The SHA-256 primitive (external
`sha2` crate) is the parameter `sha`. -/
def conversation_id (sha : Str → List Nat) (room_id : Str) (participants : List Str) : Str :=
  hexEncode ((sha (canonicalInput room_id participants)).take 16)

-- ==================== Zero-padded timestamps and message keys ====================

/-- Exactly `k` decimal digits of `n`, most significant first (the value of
Rust's `format!("{:020}", n)` when `k = 20` and `n < 10^k`; a `u64` timestamp
is always below `10^20`). -/
def padDec : Nat → Nat → Str
  | 0, _ => []
  | k + 1, n => padDec k (n / 10) ++ [Nat.digitChar (n % 10)]

def pad20 (n : Nat) : Str := padDec 20 n

/-- Storage key of a message (lib.rs lines 390-393):
`conv:{conversation_id}:msg:{timestamp:020}:{message_id}`. -/
def msgKey (conversation_id : Str) (timestamp : Nat) (message_id : Str) : Str :=
  str "conv:" ++ conversation_id ++ str ":msg:" ++ pad20 timestamp ++ ':' :: message_id

/-- The boundary key synthesised by `handle_get_messages` (lib.rs line 327):
`conv:{conversation_id}:msg:{since:020}:`. -/
def sinceKey (conversation_id : Str) (since : Nat) : Str :=
  str "conv:" ++ conversation_id ++ str ":msg:" ++ pad20 since ++ [':']

theorem padDec_length : ∀ k n, (padDec k n).length = k
  | 0, _ => rfl
  | k + 1, n => by simp [padDec, padDec_length k]

theorem digitChar_lt_aux : ∀ a < 10, ∀ b < 10, a < b → Nat.digitChar a < Nat.digitChar b := by
  decide

theorem digitChar_lt (a b : Nat) (ha : a < 10) (hb : b < 10) (h : a < b) :
    Nat.digitChar a < Nat.digitChar b := digitChar_lt_aux a ha b hb h

theorem padDec_strLt : ∀ k n m, n < m → m < 10 ^ k →
    strLt (padDec k n) (padDec k m) = true
  | 0, n, m, hnm, hm => by
    simp at hm
    omega
  | k + 1, n, m, hnm, hm => by
    have hm10 : m / 10 < 10 ^ k := by
      rw [Nat.div_lt_iff_lt_mul (by norm_num)]
      calc m < 10 ^ (k + 1) := hm
      _ = 10 ^ k * 10 := by ring
    rcases Nat.lt_or_ge (n / 10) (m / 10) with h | h
    · exact strLt_append_of_lt _ _ _ _ (by simp [padDec_length]) (padDec_strLt k _ _ h hm10)
    · have hdiv : n / 10 = m / 10 := le_antisymm (Nat.div_le_div_right (le_of_lt hnm)) h
      have hmod : n % 10 < m % 10 := by
        have := Nat.div_add_mod n 10
        have := Nat.div_add_mod m 10
        omega
      simp only [padDec, hdiv, strLt_append_left]
      simp [strLt, digitChar_lt _ _ (Nat.mod_lt _ (by norm_num)) (Nat.mod_lt _ (by norm_num)) hmod]

/-- Chronology determines key order: with the zero-padded 20-digit timestamp,
an earlier `u64` timestamp yields a lexicographically smaller storage key. -/
theorem msgKey_strLt (cid : Str) (t1 t2 : Nat) (i1 i2 : Str)
    (h1 : t1 < 10 ^ 20) (h2 : t2 < 10 ^ 20) (hlt : t1 < t2) :
    strLt (msgKey cid t1 i1) (msgKey cid t2 i2) = true := by
  simp only [msgKey, List.append_assoc, strLt_append_left]
  exact strLt_append_of_lt _ _ _ _ (by simp [pad20, padDec_length])
    (padDec_strLt 20 t1 t2 hlt h2)

/-- At equal timestamps, key order is exactly message-id order. -/
theorem msgKey_strLt_tie (cid : Str) (t : Nat) (i1 i2 : Str) :
    strLt (msgKey cid t i1) (msgKey cid t i2) = strLt i1 i2 := by
  have h : ∀ j : Str, msgKey cid t j
      = (str "conv:" ++ cid ++ str ":msg:" ++ pad20 t ++ [':']) ++ j := by
    intro j
    simp [msgKey]
  rw [h i1, h i2, strLt_append_left]

/-- Key order reflects back to timestamps (used for the chronological-order
conclusion): a key-sorted pair of well-formed messages is time-sorted. -/
theorem msgKey_le_of_strLt (cid : Str) (t1 t2 : Nat) (i1 i2 : Str)
    (h1 : t1 < 10 ^ 20) (h2 : t2 < 10 ^ 20)
    (h : strLt (msgKey cid t1 i1) (msgKey cid t2 i2) = true) : t1 ≤ t2 := by
  by_contra hgt
  have := msgKey_strLt cid t2 t1 i2 i1 h2 h1 (by omega)
  have := strLt_asymm _ _ this
  simp [this] at h

-- ==================== Data types (lib.rs lines 99-113) ====================

structure ConvMeta where
  room_id : Str
  participants : List Str
deriving DecidableEq

structure Message where
  message_id : Str
  room_id : Str
  conversation_id : Str
  sender_country : Str
  content : Str
  timestamp : Nat
deriving DecidableEq

/-- Outcome of a handler: a success payload or an HTTP error status, as
produced by `err(msg, status)` / `Response::from_json` in lib.rs. -/
inductive HResp (α : Type) where
  | ok : α → HResp α
  | err : Nat → HResp α
deriving DecidableEq

/-- Typed model of the Workers KV store (binding `COUNCIL_KV`).  The four key
namespaces used by lib.rs are disjoint (`room:{r}:seat:{c}`,
`conv:{id}:meta`, `room:{r}:conversations`, `conv:{id}:msg:...`), so the
store is modelled as one field per namespace, each indexed by the variable
parts of its key. -/
structure KV where
  seat : Str → Str → Bool
  meta : Str → Option ConvMeta
  roomConvs : Str → Option (List Str)
  msg : Str → Option Message

-- ==================== POST /api/auth (lib.rs lines 146-185) ====================

/-- `handle_auth`: validate country and room, fail with 409 if the seat
marker exists, otherwise write the marker and issue a token. -/
def handle_auth (mac : Str → Str → List Nat) (secret room_id country : Str)
    (kv : KV) : HResp Str × KV :=
  if valid_country country = false then (.err 400, kv)
  else if room_id = [] ∨ room_id.length > 64 then (.err 400, kv)
  else if kv.seat room_id country then (.err 409, kv)
  else (.ok (make_token mac secret room_id country),
    { kv with seat := fun r c => if r = room_id ∧ c = country then true else kv.seat r c })

-- ==================== POST /api/conversations (lib.rs lines 225-289) ====================

/-- The participant validation loop of `handle_post_conversations`
(lib.rs lines 248-256): first invalid country or duplicate wins. -/
def checkParticipants : List Str → List Str → Option Nat
  | _, [] => none
  | seen, p :: ps =>
    if valid_country p = false then some 400
    else if p ∈ seen then some 400
    else checkParticipants (p :: seen) ps

/-- `handle_post_conversations`: authorize, validate, derive the id, persist
metadata and extend the room index only when the id is new. -/
def handle_post_conversations (sha : Str → List Nat) (claims : Claims)
    (room_id : Str) (participants : List Str) (kv : KV) : HResp Str × KV :=
  if room_id ≠ claims.room_id then (.err 401, kv)
  else if participants.length < 2 ∨ participants.length > 3 then (.err 400, kv)
  else
    match checkParticipants [] participants with
    | some e => (.err e, kv)
    | none =>
      if claims.country ∉ participants then (.err 403, kv)
      else
        let conv_id := conversation_id sha claims.room_id participants
        match kv.meta conv_id with
        | some _ => (.ok conv_id, kv)
        | none =>
          let m : ConvMeta := ⟨claims.room_id, sortStr participants⟩
          let kv1 : KV := { kv with meta := fun k => if k = conv_id then some m else kv.meta k }
          let ids := (kv1.roomConvs claims.room_id).getD []
          if conv_id ∈ ids then (.ok conv_id, kv1)
          else (.ok conv_id,
            { kv1 with roomConvs := fun k =>
                if k = claims.room_id then some (ids ++ [conv_id]) else kv1.roomConvs k })

-- ==================== POST /api/messages (lib.rs lines 348-401) ====================

/-- `handle_post_messages`: validate content length, require existing
metadata, authorize by room and membership, then write the message under its
timestamp-ordered key.  The server-assigned timestamp (`Date::now()`) and the
random message id (`uuid`) are oracle inputs. -/
def handle_post_messages (claims : Claims) (conv_id content : Str)
    (timestamp : Nat) (message_id : Str) (kv : KV) : HResp Str × KV :=
  if content = [] ∨ content.length > 4096 then (.err 400, kv)
  else
    match kv.meta conv_id with
    | none => (.err 404, kv)
    | some meta =>
      if meta.room_id ≠ claims.room_id ∨ claims.country ∉ meta.participants then (.err 403, kv)
      else
        let message : Message :=
          ⟨message_id, claims.room_id, conv_id, claims.country, content, timestamp⟩
        let k := msgKey conv_id timestamp message_id
        (.ok message_id,
          { kv with msg := fun k' => if k' = k then some message else kv.msg k' })

-- ==================== GET /api/messages (lib.rs lines 293-344) ====================

/-- The fetch loop of `handle_get_messages` (lib.rs lines 330-341): walk the
prefix-listed keys in store order, skip keys at or lexicographically before
the boundary key when `since > 0`, fetch each record, stop once 200 records
have been collected.  `cnt` is `messages.len()` at loop entry. -/
def collectMessages (kv : KV) (skey : Str) (since : Nat) : List Str → Nat → List Message
  | [], _ => []
  | k :: ks, cnt =>
    if since > 0 ∧ strLe k skey = true then collectMessages kv skey since ks cnt
    else
      match kv.msg k with
      | none => collectMessages kv skey since ks cnt
      | some m => m :: (if cnt + 1 ≥ 200 then [] else collectMessages kv skey since ks (cnt + 1))

/-- `handle_get_messages`: require existing metadata, authorize by room and
membership, then collect from the store's prefix listing.  `listed` is the
key list returned by `kv.list().prefix("conv:{id}:msg:")` — the sorted-prefix
listing contract of the external store. -/
def handle_get_messages (claims : Claims) (conv_id : Str) (since : Nat)
    (kv : KV) (listed : List Str) : HResp (List Message) :=
  match kv.meta conv_id with
  | none => .err 404
  | some meta =>
    if meta.room_id ≠ claims.room_id ∨ claims.country ∉ meta.participants then .err 403
    else .ok (collectMessages kv (sinceKey conv_id since) since listed 0)

/-- Operations that touch the store, for statements quantifying over whole
request histories.  Get-handlers never mutate the store and are omitted. -/
inductive Op where
  | auth (secret room_id country : Str)
  | postConv (claims : Claims) (room_id : Str) (participants : List Str)
  | postMsg (claims : Claims) (conv_id content : Str) (timestamp : Nat) (message_id : Str)

def applyOp (mac : Str → Str → List Nat) (sha : Str → List Nat) (kv : KV) : Op → KV
  | .auth s r c => (handle_auth mac s r c kv).2
  | .postConv cl r ps => (handle_post_conversations sha cl r ps kv).2
  | .postMsg cl cid ct ts mid => (handle_post_messages cl cid ct ts mid kv).2

-- ==================== Injectivity of the canonical conversation string ====================

/-- Splitting at a delimiter absent from both left parts is unambiguous. -/
theorem splitFirstDelim (d : Char) : ∀ a b as bs : Str, d ∉ a → d ∉ b →
    a ++ d :: as = b ++ d :: bs → a = b ∧ as = bs
  | [], [], as, bs, _, _, h => by
    simp at h
    exact ⟨rfl, h⟩
  | [], y :: b, as, bs, _, hb, h => by
    simp at h
    exact absurd (h.1 ▸ List.mem_cons_self y b) (by simpa [← h.1] using hb)
  | x :: a, [], as, bs, ha, _, h => by
    simp at h
    exact absurd (h.1 ▸ List.mem_cons_self x a) (by simpa [← h.1] using ha)
  | x :: a, y :: b, as, bs, ha, hb, h => by
    simp only [List.cons_append, List.cons.injEq] at h
    obtain ⟨hxy, h'⟩ := h
    have := splitFirstDelim d a b as bs (fun hm => ha (List.mem_cons_of_mem x hm))
      (fun hm => hb (List.mem_cons_of_mem y hm)) h'
    exact ⟨by simp [hxy, this.1], this.2⟩

theorem joinColon_single (x : Str) : joinColon [x] = x := rfl

theorem joinColon_cons2 (x y : Str) (ys : List Str) :
    joinColon (x :: y :: ys) = x ++ ':' :: joinColon (y :: ys) := rfl

/-- `join(":")` is injective on nonempty lists of nonempty, colon-free parts. -/
theorem joinColon_inj : ∀ xs ys : List Str,
    (∀ x ∈ xs, x ≠ [] ∧ ':' ∉ x) → (∀ y ∈ ys, y ≠ [] ∧ ':' ∉ y) →
    xs ≠ [] → ys ≠ [] → joinColon xs = joinColon ys → xs = ys
  | [], _, _, _, hx, _, _ => absurd rfl hx
  | _ :: _, [], _, _, _, hy, _ => absurd rfl hy
  | [x], [y], _, _, _, _, h => by simpa [joinColon_single] using h
  | [x], y1 :: y2 :: ys, hx, hy, _, _, h => by
    have hcx : ':' ∉ x := (hx x (by simp)).2
    rw [joinColon_single, joinColon_cons2] at h
    apply absurd _ hcx
    rw [h]
    exact List.mem_append.mpr (Or.inr (List.mem_cons_self ':' _))
  | x1 :: x2 :: xs, [y], hx, hy, _, _, h => by
    have hcy : ':' ∉ y := (hy y (by simp)).2
    rw [joinColon_cons2, joinColon_single] at h
    apply absurd _ hcy
    rw [← h]
    exact List.mem_append.mpr (Or.inr (List.mem_cons_self ':' _))
  | x1 :: x2 :: xs, y1 :: y2 :: ys, hx, hy, _, _, h => by
    rw [joinColon_cons2, joinColon_cons2] at h
    obtain ⟨h1, h2⟩ := splitFirstDelim ':' x1 y1 _ _
      (hx x1 (by simp)).2 (hy y1 (by simp)).2 h
    have := joinColon_inj (x2 :: xs) (y2 :: ys)
      (fun x hm => hx x (List.mem_cons_of_mem x1 hm))
      (fun y hm => hy y (List.mem_cons_of_mem y1 hm))
      (by simp) (by simp) h2
    simp [h1, this]

-- ==================== Claims about the Token Codec ====================

/-- Claim C4: for every secret, every room_id (non-empty, at most 64 bytes,
arbitrary content including delimiter characters) and every country of the
closed set, verifying a freshly issued token succeeds and recovers exactly
the pair (room_id, country). -/
theorem claim_C4 (mac : Str → Str → List Nat) (secret room c : Str)
    (hc : valid_country c = true) (hne : room ≠ []) (hlen : room.length ≤ 64) :
    verify_token mac secret (make_token mac secret room c) = some ⟨room, c⟩ :=
  verify_make_token mac secret room c hc

theorem claim_C4_witness :
    valid_country (str "france") = true ∧ str "r" ≠ ([] : Str) ∧ (str "r").length ≤ 64 ∧
      verify_token (fun _ _ => [171]) (str "s")
        (make_token (fun _ _ => [171]) (str "s") (str "r") (str "france"))
        = some ⟨str "r", str "france"⟩ :=
  ⟨by decide, by decide, by decide,
    claim_C4 (fun _ _ => [171]) (str "s") (str "r") (str "france")
      (by decide) (by decide) (by decide)⟩

/-- Claim C10: whenever verification accepts a token and returns claims
(room_id, country), the token is exactly `make_token secret room_id country`;
in particular verification imposes no emptiness or 64-byte bound on the
recovered room_id (tokens with an empty or 65-byte room are accepted). -/
theorem claim_C10 (mac : Str → Str → List Nat) (secret token room c : Str) :
    (verify_token mac secret token = some ⟨room, c⟩ →
      token = make_token mac secret room c)
    ∧ verify_token mac secret (make_token mac secret [] (str "france"))
        = some ⟨[], str "france"⟩
    ∧ verify_token mac secret
          (make_token mac secret (List.replicate 65 'a') (str "france"))
        = some ⟨List.replicate 65 'a', str "france"⟩ := by
  refine ⟨?_, verify_make_token mac secret [] (str "france") (by decide),
    verify_make_token mac secret (List.replicate 65 'a') (str "france") (by decide)⟩
  intro h
  rcases h1 : splitLastBar token with _ | ⟨rest, hmac_part⟩
  · simp [verify_token, h1] at h
  rcases h2 : splitLastBar rest with _ | ⟨rm, ct⟩
  · simp [verify_token, h1, h2] at h
  simp only [verify_token, h1, h2] at h
  by_cases hvc : valid_country ct = false
  · rw [if_pos hvc] at h
    exact absurd h (by simp)
  rw [if_neg hvc] at h
  by_cases hdig : compute_hmac_hex mac secret rm ct ≠ hmac_part
  · rw [if_pos hdig] at h
    exact absurd h (by simp)
  rw [if_neg hdig] at h
  have h' := Option.some.inj h
  cases h'
  have hde : compute_hmac_hex mac secret room c = hmac_part := by
    by_contra hne
    exact hdig hne
  rw [splitLastBar_recon token rest hmac_part h1, splitLastBar_recon rest room c h2,
    make_token, hde]

theorem claim_C10_witness :
    str "r|france|ab" = make_token (fun _ _ => [171]) (str "s") (str "r") (str "france") :=
  (claim_C10 (fun _ _ => [171]) (str "s") (str "r|france|ab") (str "r") (str "france")).1
    (by decide)

-- ==================== Claims about conversation-id derivation ====================

theorem conversation_id_perm (sha : Str → List Nat) (room : Str) {ps1 ps2 : List Str}
    (hperm : ps1.Perm ps2) :
    conversation_id sha room ps1 = conversation_id sha room ps2 := by
  simp [conversation_id, canonicalInput, sortStr_eq_of_perm hperm]

/-- Claim C9: conversation-id derivation is order-independent (any permutation
of the participant list yields the same identifier, for every digest
function) and deterministic (repeated calls on equal inputs agree; the
embedded function is pure). -/
theorem claim_C9 (sha : Str → List Nat) (room : Str) (ps1 ps2 : List Str)
    (hperm : ps1.Perm ps2) :
    conversation_id sha room ps1 = conversation_id sha room ps2
    ∧ conversation_id sha room ps1 = conversation_id sha room ps1 :=
  ⟨conversation_id_perm sha room hperm, rfl⟩

theorem claim_C9_witness :
    conversation_id (fun s => s.map Char.toNat) (str "r")
        [str "england", str "france"]
      = conversation_id (fun s => s.map Char.toNat) (str "r")
        [str "france", str "england"] :=
  (claim_C9 (fun s => s.map Char.toNat) (str "r") _ _
    (List.Perm.swap (str "france") (str "england") [])).1

/-- Claim C3 counterexample: two distinct, fully in-bounds inputs (both rooms
non-empty and at most 64 bytes, both participant lists sets of 2-3 distinct
countries, the rooms distinct) whose canonical strings are EQUAL, because an
unescaped `':'` inside a room identifier can imitate a participant
delimiter; the derived identifiers therefore also collide (shown for a
concrete digest function), refuting the claimed injectivity. -/
theorem claim_C3_cex :
    canonicalInput (str "r:england") [str "france", str "germany"]
      = canonicalInput (str "r") [str "england", str "france", str "germany"]
    ∧ conversation_id (fun s => s.map Char.toNat) (str "r:england")
        [str "france", str "germany"]
      = conversation_id (fun s => s.map Char.toNat) (str "r")
        [str "england", str "france", str "germany"]
    ∧ str "r:england" ≠ str "r"
    ∧ (str "r:england" ≠ [] ∧ (str "r:england").length ≤ 64)
    ∧ (str "r" ≠ [] ∧ (str "r").length ≤ 64)
    ∧ ([str "france", str "germany"].Nodup
        ∧ ∀ p ∈ [str "france", str "germany"], valid_country p = true)
    ∧ ([str "england", str "france", str "germany"].Nodup
        ∧ ∀ p ∈ [str "england", str "france", str "germany"], valid_country p = true) := by
  decide

/-- Claim C3 amended: collision-freeness of the canonical strings holds once
room identifiers are additionally required to contain no `':'` character:
for any two distinct inputs (distinct rooms, or participant sets that are
not permutations of each other) within the stated bounds, the canonical
strings fed to the hash differ. -/
theorem claim_C3_amended (r1 r2 : Str) (ps1 ps2 : List Str)
    (hcf1 : ':' ∉ r1) (hcf2 : ':' ∉ r2)
    (hr1 : r1 ≠ [] ∧ r1.length ≤ 64) (hr2 : r2 ≠ [] ∧ r2.length ≤ 64)
    (hp1 : 2 ≤ ps1.length ∧ ps1.length ≤ 3 ∧ ps1.Nodup
        ∧ ∀ p ∈ ps1, valid_country p = true)
    (hp2 : 2 ≤ ps2.length ∧ ps2.length ≤ 3 ∧ ps2.Nodup
        ∧ ∀ p ∈ ps2, valid_country p = true)
    (hdiff : r1 ≠ r2 ∨ ¬ ps1.Perm ps2) :
    canonicalInput r1 ps1 ≠ canonicalInput r2 ps2 := by
  intro h
  obtain ⟨hl1, _, _, hv1⟩ := hp1
  obtain ⟨hl2, _, _, hv2⟩ := hp2
  rw [canonicalInput, canonicalInput] at h
  obtain ⟨hr, hj⟩ := splitFirstDelim ':' r1 r2 _ _ hcf1 hcf2 h
  have hparts : ∀ (ps : List Str), (∀ p ∈ ps, valid_country p = true) →
      ∀ x ∈ sortStr ps, x ≠ [] ∧ ':' ∉ x := by
    intro ps hv x hx
    have hxm : x ∈ ps := (sortStr_perm ps).subset hx
    have hxc : x ∈ countries := (valid_country_iff x).mp (hv x hxm)
    exact ⟨countries_nonempty x hxc, countries_colon_free x hxc⟩
  have hne1 : sortStr ps1 ≠ [] := by
    have hle := (sortStr_perm ps1).length_eq
    intro hnil
    rw [hnil] at hle
    simp at hle
    omega
  have hne2 : sortStr ps2 ≠ [] := by
    have hle := (sortStr_perm ps2).length_eq
    intro hnil
    rw [hnil] at hle
    simp at hle
    omega
  have hsorteq : sortStr ps1 = sortStr ps2 :=
    joinColon_inj _ _ (hparts ps1 hv1) (hparts ps2 hv2) hne1 hne2 hj
  have hperm : ps1.Perm ps2 :=
    (sortStr_perm ps1).symm.trans (hsorteq ▸ sortStr_perm ps2)
  rcases hdiff with hd | hd
  · exact hd hr
  · exact hd hperm

theorem claim_C3_amended_witness :
    canonicalInput (str "a") [str "france", str "germany"]
      ≠ canonicalInput (str "b") [str "france", str "germany"] :=
  claim_C3_amended (str "a") (str "b") _ _ (by decide) (by decide)
    (by decide) (by decide)
    ⟨by decide, by decide, by decide, by decide⟩
    ⟨by decide, by decide, by decide, by decide⟩
    (Or.inl (by decide))

-- ==================== Claim C2: digest comparison is not constant-time ====================

/-- Number of character comparisons performed by a short-circuiting string
equality (the behaviour of Rust's `!=` on `String` at line 54 of lib.rs:
byte-wise comparison that may stop at the first mismatch — NOT the
constant-time primitive the design notes require). -/
def shortCircuitEqCost : Str → Str → Nat
  | a :: as, b :: bs => 1 + (if a = b then shortCircuitEqCost as bs else 0)
  | _, _ => 0

/-- The comparison work done by `verify_token`'s digest check on a given
token, under the short-circuit cost model (0 if rejection happens before the
digest comparison is reached). -/
def verify_token_cmp_cost (mac : Str → Str → List Nat) (secret token : Str) : Nat :=
  match splitLastBar token with
  | none => 0
  | some (rest, hmac_part) =>
    match splitLastBar rest with
    | none => 0
    | some (room_id_part, country_part) =>
      if valid_country country_part = false then 0
      else shortCircuitEqCost (compute_hmac_hex mac secret room_id_part country_part) hmac_part

/-- Claim C2 evidence: two rejected tokens of identical length whose digest
fields differ from the true digest "aaaa" in the last versus the first
character make the code's comparison do 4 versus 1 character comparisons —
the work done by `verify_token`'s digest check grows with the number of
matching leading characters, which a constant-time comparison would forbid. -/
theorem claim_C2_evidence :
    verify_token (fun _ _ => [170, 170]) (str "s") (str "r|france|aaab") = none
    ∧ verify_token (fun _ _ => [170, 170]) (str "s") (str "r|france|baaa") = none
    ∧ (str "r|france|aaab").length = (str "r|france|baaa").length
    ∧ verify_token_cmp_cost (fun _ _ => [170, 170]) (str "s") (str "r|france|aaab") = 4
    ∧ verify_token_cmp_cost (fun _ _ => [170, 170]) (str "s") (str "r|france|baaa") = 1 := by
  decide

-- ==================== Claim C1: the since filter is >= on timestamps, not > ====================

/-- Claim C1 evidence (refutation): a conversation with a single stored
message of timestamp 5 read back with `since = 5` RETURNS that message, even
though its timestamp is not strictly greater than `since`.  The boundary key
`conv:c:msg:00000000000000000005:` is a strict prefix of the message key
`conv:c:msg:00000000000000000005:m`, hence lexicographically smaller, so the
skip condition `key <= since_key` does not fire for same-timestamp keys. -/
theorem claim_C1_evidence :
    handle_get_messages ⟨str "r", str "france"⟩ (str "c") 5
      { seat := fun _ _ => false
        meta := fun k => if k = str "c"
          then some ⟨str "r", [str "england", str "france"]⟩ else none
        roomConvs := fun _ => none
        msg := fun k => if k = msgKey (str "c") 5 (str "m")
          then some ⟨str "m", str "r", str "c", str "france", str "hi", 5⟩ else none }
      [msgKey (str "c") 5 (str "m")]
      = .ok [⟨str "m", str "r", str "c", str "france", str "hi", 5⟩]
    ∧ strLe (msgKey (str "c") 5 (str "m")) (sinceKey (str "c") 5) = false
    ∧ (5 : Nat) ≤ 5 := by
  decide

-- ==================== Claim C5: conversation creation is idempotent ====================

theorem checkParticipants_none : ∀ (ps seen : List Str),
    (∀ p ∈ ps, valid_country p = true) → ps.Nodup → (∀ p ∈ ps, p ∉ seen) →
    checkParticipants seen ps = none
  | [], _, _, _, _ => rfl
  | p :: ps, seen, hv, hnd, hs => by
    have hvp : valid_country p = true := hv p (by simp)
    have hps : p ∉ seen := hs p (by simp)
    rw [checkParticipants, if_neg (by simp [hvp]), if_neg hps]
    exact checkParticipants_none ps (p :: seen)
      (fun q hq => hv q (List.mem_cons_of_mem p hq))
      (List.Nodup.of_cons hnd)
      (fun q hq => by
        simp only [List.mem_cons]
        push_neg
        exact ⟨fun he => (List.nodup_cons.mp hnd).1 (he ▸ hq), hs q (List.mem_cons_of_mem p hq)⟩)

/-- A successful create: under the preconditions the handler returns the
derived id and afterwards the metadata for that id is present. -/
theorem hpc_ok (sha : Str → List Nat) (claims : Claims) (ps : List Str) (kv : KV)
    (hlen2 : 2 ≤ ps.length) (hlen3 : ps.length ≤ 3)
    (hvalid : ∀ p ∈ ps, valid_country p = true) (hnd : ps.Nodup)
    (hmem : claims.country ∈ ps) :
    (handle_post_conversations sha claims claims.room_id ps kv).1
      = .ok (conversation_id sha claims.room_id ps)
    ∧ (handle_post_conversations sha claims claims.room_id ps kv).2.meta
        (conversation_id sha claims.room_id ps) ≠ none := by
  have hchk : checkParticipants [] ps = none :=
    checkParticipants_none ps [] hvalid hnd (by simp)
  rw [handle_post_conversations]
  rw [if_neg (by simp), if_neg (by omega), hchk]
  simp only
  rw [if_neg (by simp [hmem])]
  rcases hm : kv.meta (conversation_id sha claims.room_id ps) with _ | m
  · simp only [hm]
    by_cases hin : conversation_id sha claims.room_id ps
        ∈ ((kv.roomConvs claims.room_id).getD [])
    · rw [if_pos hin]
      simp
    · rw [if_neg hin]
      simp
  · simp [hm]

/-- Claim C5: creating the same conversation twice — second time with the
participant set in any order — returns the same conversation_id both times,
and the second call leaves the store (metadata and room index included)
completely unchanged. -/
theorem claim_C5 (sha : Str → List Nat) (claims : Claims) (ps ps' : List Str) (kv : KV)
    (hperm : ps.Perm ps')
    (hlen2 : 2 ≤ ps.length) (hlen3 : ps.length ≤ 3)
    (hvalid : ∀ p ∈ ps, valid_country p = true) (hnd : ps.Nodup)
    (hmem : claims.country ∈ ps) :
    (handle_post_conversations sha claims claims.room_id ps kv).1
      = .ok (conversation_id sha claims.room_id ps)
    ∧ (handle_post_conversations sha claims claims.room_id ps'
        (handle_post_conversations sha claims claims.room_id ps kv).2).1
      = .ok (conversation_id sha claims.room_id ps)
    ∧ (handle_post_conversations sha claims claims.room_id ps'
        (handle_post_conversations sha claims claims.room_id ps kv).2).2
      = (handle_post_conversations sha claims claims.room_id ps kv).2 := by
  obtain ⟨h1, h2⟩ := hpc_ok sha claims ps kv hlen2 hlen3 hvalid hnd hmem
  have hcid : conversation_id sha claims.room_id ps'
      = conversation_id sha claims.room_id ps := by
    exact (conversation_id_perm sha claims.room_id hperm).symm
  have hchk' : checkParticipants [] ps' = none :=
    checkParticipants_none ps' []
      (fun q hq => hvalid q (hperm.mem_iff.mpr hq))
      (hperm.nodup_iff.mp hnd) (by simp)
  set kv1 := (handle_post_conversations sha claims claims.room_id ps kv).2 with hkv1
  rcases hm1 : kv1.meta (conversation_id sha claims.room_id ps) with _ | m
  · exact absurd hm1 h2
  · refine ⟨h1, ?_, ?_⟩ <;>
    · rw [handle_post_conversations]
      rw [if_neg (by simp), if_neg (by
          have := hperm.length_eq
          omega), hchk']
      simp only
      rw [if_neg (by simp [hperm.mem_iff.mp hmem]), hcid, hm1]

/-- An empty store, used to instantiate store-dependent theorems. -/
def kv0 : KV :=
  { seat := fun _ _ => false, meta := fun _ => none
    roomConvs := fun _ => none, msg := fun _ => none }

theorem claim_C5_witness :
    (handle_post_conversations (fun _ => ([] : List Nat)) ⟨str "r", str "france"⟩
        (str "r") [str "france", str "germany"] kv0).1
      = .ok (conversation_id (fun _ => []) (str "r") [str "france", str "germany"])
    ∧ (handle_post_conversations (fun _ => []) ⟨str "r", str "france"⟩ (str "r")
        [str "germany", str "france"]
        (handle_post_conversations (fun _ => []) ⟨str "r", str "france"⟩ (str "r")
          [str "france", str "germany"] kv0).2).1
      = .ok (conversation_id (fun _ => []) (str "r") [str "france", str "germany"])
    ∧ (handle_post_conversations (fun _ => []) ⟨str "r", str "france"⟩ (str "r")
        [str "germany", str "france"]
        (handle_post_conversations (fun _ => []) ⟨str "r", str "france"⟩ (str "r")
          [str "france", str "germany"] kv0).2).2
      = (handle_post_conversations (fun _ => []) ⟨str "r", str "france"⟩ (str "r")
          [str "france", str "germany"] kv0).2 :=
  claim_C5 (fun _ => []) ⟨str "r", str "france"⟩
    [str "france", str "germany"] [str "germany", str "france"] kv0
    (List.Perm.swap (str "germany") (str "france") [])
    (by decide) (by decide) (by decide) (by decide) (by decide)

-- ==================== Claim C6: at-most-one token issuance per seat ====================

theorem handle_auth_seat_mono (mac : Str → Str → List Nat) (secret r' c' : Str)
    (kv : KV) (r c : Str) (h : kv.seat r c = true) :
    (handle_auth mac secret r' c' kv).2.seat r c = true := by
  rw [handle_auth]
  split_ifs with h1 h2 h3
  · exact h
  · exact h
  · exact h
  · by_cases hrc : r = r' ∧ c = c' <;> simp [hrc, h]

theorem handle_post_conversations_seat (sha : Str → List Nat) (cl : Claims)
    (r' : Str) (ps : List Str) (kv : KV) :
    (handle_post_conversations sha cl r' ps kv).2.seat = kv.seat := by
  rw [handle_post_conversations]
  by_cases h1 : r' ≠ cl.room_id
  · rw [if_pos h1]
  rw [if_neg h1]
  by_cases h2 : ps.length < 2 ∨ ps.length > 3
  · rw [if_pos h2]
  rw [if_neg h2]
  rcases checkParticipants [] ps with _ | e
  · simp only
    by_cases h3 : cl.country ∉ ps
    · rw [if_pos h3]
    rw [if_neg h3]
    rcases kv.meta (conversation_id sha cl.room_id ps) with _ | m
    · simp only
      by_cases h4 : conversation_id sha cl.room_id ps ∈ (kv.roomConvs cl.room_id).getD []
      · rw [if_pos h4]
      · rw [if_neg h4]
    · rfl
  · rfl

theorem handle_post_messages_seat (cl : Claims) (cid ct : Str) (ts : Nat)
    (mid : Str) (kv : KV) :
    (handle_post_messages cl cid ct ts mid kv).2.seat = kv.seat := by
  rw [handle_post_messages]
  by_cases h1 : ct = [] ∨ ct.length > 4096
  · rw [if_pos h1]
  rw [if_neg h1]
  rcases kv.meta cid with _ | m
  · rfl
  · simp only
    by_cases h2 : m.room_id ≠ cl.room_id ∨ cl.country ∉ m.participants
    · rw [if_pos h2]
    · rw [if_neg h2]

theorem applyOp_seat_mono (mac : Str → Str → List Nat) (sha : Str → List Nat)
    (r c : Str) (kv : KV) (op : Op) (h : kv.seat r c = true) :
    (applyOp mac sha kv op).seat r c = true := by
  cases op with
  | auth s r' c' => exact handle_auth_seat_mono mac s r' c' kv r c h
  | postConv cl r' ps => rw [applyOp, handle_post_conversations_seat]; exact h
  | postMsg cl cid ct ts mid => rw [applyOp, handle_post_messages_seat]; exact h

theorem foldl_seat_mono (mac : Str → Str → List Nat) (sha : Str → List Nat)
    (r c : Str) : ∀ (ops : List Op) (kv : KV), kv.seat r c = true →
    (ops.foldl (applyOp mac sha) kv).seat r c = true
  | [], _, h => h
  | op :: ops, kv, h =>
    foldl_seat_mono mac sha r c ops (applyOp mac sha kv op)
      (applyOp_seat_mono mac sha r c kv op h)

/-- Claim C6: for a valid (room, country) seat under sequential execution
with read-after-write visibility, the first claim succeeds, returns the
token and writes the marker; the marker survives any sequence of subsequent
operations (no operation deletes or overwrites it); and any later claim of
the same seat fails with 409 Conflict and leaves the store untouched. -/
theorem claim_C6 (mac : Str → Str → List Nat) (sha : Str → List Nat)
    (secret room c : Str) (kv : KV)
    (hc : valid_country c = true) (hne : room ≠ []) (hlen : room.length ≤ 64)
    (h0 : kv.seat room c = false) :
    (handle_auth mac secret room c kv).1 = .ok (make_token mac secret room c)
    ∧ (handle_auth mac secret room c kv).2.seat room c = true
    ∧ (∀ ops : List Op,
        (ops.foldl (applyOp mac sha) (handle_auth mac secret room c kv).2).seat room c
          = true)
    ∧ (∀ (kv' : KV) (s2 : Str), kv'.seat room c = true →
        handle_auth mac s2 room c kv' = (.err 409, kv')) := by
  have hguard : ¬ (room = [] ∨ room.length > 64) := by
    push_neg
    exact ⟨hne, by omega⟩
  have h1 : handle_auth mac secret room c kv
      = (.ok (make_token mac secret room c),
        { kv with seat := fun r0 c0 => if r0 = room ∧ c0 = c then true else kv.seat r0 c0 }) := by
    rw [handle_auth, if_neg (by simp [hc]), if_neg hguard, if_neg (by simp [h0])]
  refine ⟨by rw [h1], ?_, ?_, ?_⟩
  · rw [h1]
    simp
  · intro ops
    apply foldl_seat_mono
    rw [h1]
    simp
  · intro kv' s2 htaken
    rw [handle_auth, if_neg (by simp [hc]), if_neg hguard, if_pos (by simp [htaken])]

theorem claim_C6_witness :
    (handle_auth (fun _ _ => ([] : List Nat)) (str "s") (str "r") (str "france") kv0).1
      = .ok (make_token (fun _ _ => []) (str "s") (str "r") (str "france"))
    ∧ (handle_auth (fun _ _ => []) (str "s") (str "r") (str "france") kv0).2.seat
        (str "r") (str "france") = true
    ∧ ([Op.postConv ⟨str "r", str "france"⟩ (str "r") [str "france", str "germany"]].foldl
        (applyOp (fun _ _ => []) (fun _ => []))
        (handle_auth (fun _ _ => []) (str "s") (str "r") (str "france") kv0).2).seat
        (str "r") (str "france") = true
    ∧ handle_auth (fun _ _ => []) (str "s2") (str "r") (str "france")
        ([Op.postConv ⟨str "r", str "france"⟩ (str "r") [str "france", str "germany"]].foldl
          (applyOp (fun _ _ => []) (fun _ => []))
          (handle_auth (fun _ _ => []) (str "s") (str "r") (str "france") kv0).2)
      = (.err 409,
        [Op.postConv ⟨str "r", str "france"⟩ (str "r") [str "france", str "germany"]].foldl
          (applyOp (fun _ _ => []) (fun _ => []))
          (handle_auth (fun _ _ => []) (str "s") (str "r") (str "france") kv0).2) := by
  have h := claim_C6 (fun _ _ => []) (fun _ => []) (str "s") (str "r") (str "france") kv0
    (by decide) (by decide) (by decide) rfl
  exact ⟨h.1, h.2.1,
    h.2.2.1 [Op.postConv ⟨str "r", str "france"⟩ (str "r") [str "france", str "germany"]],
    h.2.2.2 _ (str "s2")
      (h.2.2.1 [Op.postConv ⟨str "r", str "france"⟩ (str "r") [str "france", str "germany"]])⟩

-- ==================== Claim C7: bounded, chronologically ordered reads ====================

theorem collectMessages_length (kv : KV) (skey : Str) (since : Nat) :
    ∀ (ks : List Str) (cnt : Nat), cnt < 200 →
    (collectMessages kv skey since ks cnt).length ≤ 200 - cnt
  | [], _, _ => by simp [collectMessages]
  | k :: ks, cnt, hcnt => by
    rw [collectMessages]
    by_cases hskip : since > 0 ∧ strLe k skey = true
    · rw [if_pos hskip]
      exact collectMessages_length kv skey since ks cnt hcnt
    rw [if_neg hskip]
    rcases kv.msg k with _ | m
    · exact collectMessages_length kv skey since ks cnt hcnt
    · simp only [List.length_cons]
      by_cases hstop : cnt + 1 ≥ 200
      · rw [if_pos hstop]
        simp
        omega
      · rw [if_neg hstop]
        have := collectMessages_length kv skey since ks (cnt + 1) (by omega)
        omega

theorem collectMessages_sublist (kv : KV) (skey : Str) (since : Nat) :
    ∀ (ks : List Str) (cnt : Nat),
    (collectMessages kv skey since ks cnt).Sublist (ks.filterMap kv.msg)
  | [], _ => by simp [collectMessages]
  | k :: ks, cnt => by
    rw [collectMessages]
    by_cases hskip : since > 0 ∧ strLe k skey = true
    · rw [if_pos hskip]
      refine (collectMessages_sublist kv skey since ks cnt).trans ?_
      rw [List.filterMap_cons]
      rcases kv.msg k with _ | m
      · exact List.Sublist.refl _
      · exact List.sublist_cons_self m _
    rw [if_neg hskip]
    rcases hm : kv.msg k with _ | m
    · rw [List.filterMap_cons, hm]
      exact collectMessages_sublist kv skey since ks cnt
    · rw [List.filterMap_cons, hm]
      by_cases hstop : cnt + 1 ≥ 200
      · rw [if_pos hstop]
        simp
      · rw [if_neg hstop]
        exact List.Sublist.cons₂ m (collectMessages_sublist kv skey since ks (cnt + 1))

/-- Claim C7: assuming the store lists keys in ascending lexicographic order,
a read returns at most 200 messages in ascending chronological order; the
zero-padded 20-digit timestamp makes key order agree with timestamp order
for timestamps below `10^20` (the whole `u64` range), with equal-timestamp
ties ordered exactly by message id. -/
theorem claim_C7 (claims : Claims) (conv_id : Str) (since : Nat) (kv : KV)
    (listed : List Str) (meta : ConvMeta)
    (hmeta : kv.meta conv_id = some meta)
    (hroom : meta.room_id = claims.room_id)
    (hpart : claims.country ∈ meta.participants)
    (hsorted : listed.Pairwise (fun k1 k2 => strLt k1 k2 = true))
    (hwf : ∀ k ∈ listed, ∀ m, kv.msg k = some m →
      k = msgKey conv_id m.timestamp m.message_id ∧ m.timestamp < 10 ^ 20) :
    handle_get_messages claims conv_id since kv listed
      = .ok (collectMessages kv (sinceKey conv_id since) since listed 0)
    ∧ (collectMessages kv (sinceKey conv_id since) since listed 0).length ≤ 200
    ∧ (collectMessages kv (sinceKey conv_id since) since listed 0).Pairwise
        (fun m1 m2 => m1.timestamp ≤ m2.timestamp)
    ∧ (∀ t1 t2 i1 i2, t1 < 10 ^ 20 → t2 < 10 ^ 20 → t1 < t2 →
        strLt (msgKey conv_id t1 i1) (msgKey conv_id t2 i2) = true)
    ∧ (∀ t i1 i2, strLt (msgKey conv_id t i1) (msgKey conv_id t i2) = strLt i1 i2) := by
  refine ⟨?_, ?_, ?_, ?_, ?_⟩
  · rw [handle_get_messages, hmeta]
    simp [hroom, hpart]
  · simpa using collectMessages_length kv (sinceKey conv_id since) since listed 0 (by omega)
  · have hpw : listed.Pairwise (fun k1 k2 => ∀ m1, kv.msg k1 = some m1 →
        ∀ m2, kv.msg k2 = some m2 → m1.timestamp ≤ m2.timestamp) := by
      refine hsorted.imp_of_mem ?_
      intro a b ha hb hlt m1 hm1 m2 hm2
      obtain ⟨hk1, ht1⟩ := hwf a ha m1 hm1
      obtain ⟨hk2, ht2⟩ := hwf b hb m2 hm2
      rw [hk1, hk2] at hlt
      exact msgKey_le_of_strLt conv_id m1.timestamp m2.timestamp
        m1.message_id m2.message_id ht1 ht2 hlt
    have hfm : (listed.filterMap kv.msg).Pairwise
        (fun m1 m2 => m1.timestamp ≤ m2.timestamp) := by
      rw [List.pairwise_filterMap]
      refine hpw.imp ?_
      intro a b hab m1 hm1 m2 hm2
      exact hab m1 hm1 m2 hm2
    exact hfm.sublist (collectMessages_sublist kv (sinceKey conv_id since) since listed 0)
  · intro t1 t2 i1 i2 h1 h2 hlt
    exact msgKey_strLt conv_id t1 t2 i1 i2 h1 h2 hlt
  · intro t i1 i2
    exact msgKey_strLt_tie conv_id t i1 i2

/-- A concrete store holding one conversation with two messages, used to
instantiate the read-path theorem. -/
def kvC7 : KV :=
  { seat := fun _ _ => false
    meta := fun k => if k = str "c"
      then some ⟨str "r", [str "england", str "france"]⟩ else none
    roomConvs := fun _ => none
    msg := fun k =>
      if k = msgKey (str "c") 1 (str "m1")
        then some ⟨str "m1", str "r", str "c", str "england", str "a", 1⟩
      else if k = msgKey (str "c") 2 (str "m2")
        then some ⟨str "m2", str "r", str "c", str "france", str "b", 2⟩
      else none }

theorem claim_C7_witness :
    handle_get_messages ⟨str "r", str "france"⟩ (str "c") 0 kvC7
        [msgKey (str "c") 1 (str "m1"), msgKey (str "c") 2 (str "m2")]
      = .ok (collectMessages kvC7 (sinceKey (str "c") 0) 0
          [msgKey (str "c") 1 (str "m1"), msgKey (str "c") 2 (str "m2")] 0)
    ∧ (collectMessages kvC7 (sinceKey (str "c") 0) 0
        [msgKey (str "c") 1 (str "m1"), msgKey (str "c") 2 (str "m2")] 0).length ≤ 200
    ∧ (collectMessages kvC7 (sinceKey (str "c") 0) 0
        [msgKey (str "c") 1 (str "m1"), msgKey (str "c") 2 (str "m2")] 0).Pairwise
        (fun m1 m2 => m1.timestamp ≤ m2.timestamp) := by
  have h := claim_C7 ⟨str "r", str "france"⟩ (str "c") 0 kvC7
    [msgKey (str "c") 1 (str "m1"), msgKey (str "c") 2 (str "m2")]
    ⟨str "r", [str "england", str "france"]⟩
    (by decide) (by decide) (by decide) (by decide)
    (by
      intro k hk m hm
      simp only [List.mem_cons, List.not_mem_nil, or_false] at hk
      rcases hk with rfl | rfl
      · rw [show kvC7.msg (msgKey (str "c") 1 (str "m1"))
            = some (⟨str "m1", str "r", str "c", str "england", str "a", 1⟩ : Message)
          from by decide] at hm
        cases Option.some.inj hm
        exact ⟨rfl, by norm_num⟩
      · rw [show kvC7.msg (msgKey (str "c") 2 (str "m2"))
            = some (⟨str "m2", str "r", str "c", str "france", str "b", 2⟩ : Message)
          from by decide] at hm
        cases Option.some.inj hm
        exact ⟨rfl, by norm_num⟩)
  exact ⟨h.1, h.2.1, h.2.2.1⟩

-- ==================== Claim C8: any single-character edit is rejected ====================

/-- Evaluating `verify_token` on any three-field token whose country and
digest fields are delimiter-free (the left field may contain delimiters). -/
theorem verify_token_dissect (mac : Str → Str → List Nat) (secret pre ct d : Str)
    (hd : '|' ∉ d) (hct : '|' ∉ ct) :
    verify_token mac secret (pre ++ '|' :: ct ++ '|' :: d)
      = if valid_country ct = false then none
        else if compute_hmac_hex mac secret pre ct ≠ d then none
        else some ⟨pre, ct⟩ := by
  have he : pre ++ '|' :: ct ++ '|' :: d = (pre ++ '|' :: ct) ++ '|' :: d := by simp
  simp only [verify_token, he, splitLastBar_append _ _ hd, splitLastBar_append _ _ hct]

/-- Claim C8: for every validly issued token, changing any single character
inside any one of its three fields (room identifier, country, hex digest)
yields a token that verification rejects — given that the keyed digest has
no collision between the original room and any other room string (the
collision-resistance of HMAC-SHA256, stated as a hypothesis on the abstract
digest parameter). -/
theorem claim_C8 (mac : Str → Str → List Nat) (secret room c : Str)
    (hc : valid_country c = true) (hne : room ≠ []) (hlen : room.length ≤ 64)
    (hcoll : ∀ r' : Str, r' ≠ room →
      compute_hmac_hex mac secret r' c ≠ compute_hmac_hex mac secret room c) :
    (∀ (i : Fin room.length) (ch : Char), ch ≠ room.get i →
      verify_token mac secret
        (room.set i ch ++ '|' :: c ++ '|' :: compute_hmac_hex mac secret room c) = none)
    ∧ (∀ (i : Fin c.length) (ch : Char), ch ≠ c.get i →
      verify_token mac secret
        (room ++ '|' :: c.set i ch ++ '|' :: compute_hmac_hex mac secret room c) = none)
    ∧ (∀ (i : Fin (compute_hmac_hex mac secret room c).length) (ch : Char),
        ch ≠ (compute_hmac_hex mac secret room c).get i →
      verify_token mac secret
        (room ++ '|' :: c ++ '|' :: (compute_hmac_hex mac secret room c).set i ch)
          = none) := by
  have hd : '|' ∉ compute_hmac_hex mac secret room c := bar_not_mem_hexEncode _
  have hdhex : ∀ x ∈ compute_hmac_hex mac secret room c, x ∈ hexAlpha :=
    hexEncode_subset_hexAlpha _
  have hcmem : c ∈ countries := (valid_country_iff c).mp hc
  have hcbar : '|' ∉ c := countries_bar_free c hcmem
  refine ⟨?_, ?_, ?_⟩
  · intro i ch hch
    rw [verify_token_dissect mac secret _ c _ hd hcbar,
      if_neg (by simp [hc]), if_pos (hcoll _ (set_ne i.isLt hch))]
  · intro i ch hch
    by_cases hbar : ch = '|'
    · subst hbar
      have hset : c.set i '|' = c.take i ++ '|' :: c.drop (i + 1) := by
        rw [List.set_eq_take_append_cons_drop, if_pos i.isLt]
      have htok : room ++ '|' :: (c.take ↑i ++ '|' :: c.drop (↑i + 1))
            ++ '|' :: compute_hmac_hex mac secret room c
          = (room ++ '|' :: c.take ↑i) ++ '|' :: c.drop (↑i + 1)
            ++ '|' :: compute_hmac_hex mac secret room c := by
        simp
      rw [hset, htok,
        verify_token_dissect mac secret _ _ _ hd
          (fun hm => hcbar (List.mem_of_mem_drop hm)),
        if_pos (countries_drop_invalid c hcmem ↑i
          (lt_of_lt_of_le i.isLt (countries_length_le c hcmem)))]
    · have hsetbar : '|' ∉ c.set ↑i ch := by
        intro hm
        rcases List.mem_or_eq_of_mem_set hm with h' | h'
        · exact hcbar h'
        · exact hbar h'.symm
      rw [verify_token_dissect mac secret room _ _ hd hsetbar,
        if_pos (valid_country_set_ne c hc ↑i ch i.isLt hch)]
  · intro i ch hch
    by_cases hbar : ch = '|'
    · subst hbar
      have hset : (compute_hmac_hex mac secret room c).set ↑i '|'
          = (compute_hmac_hex mac secret room c).take ↑i
            ++ '|' :: (compute_hmac_hex mac secret room c).drop (↑i + 1) := by
        rw [List.set_eq_take_append_cons_drop, if_pos i.isLt]
      have htok : room ++ '|' :: c
            ++ '|' :: ((compute_hmac_hex mac secret room c).take ↑i
              ++ '|' :: (compute_hmac_hex mac secret room c).drop (↑i + 1))
          = (room ++ '|' :: c) ++ '|' :: (compute_hmac_hex mac secret room c).take ↑i
            ++ '|' :: (compute_hmac_hex mac secret room c).drop (↑i + 1) := by
        simp
      rw [hset, htok,
        verify_token_dissect mac secret _ _ _
          (fun hm => hd (List.mem_of_mem_drop hm))
          (fun hm => hd (List.mem_of_mem_take hm)),
        if_pos (hex_not_country _ (fun x hx => hdhex x (List.mem_of_mem_take hx)))]
    · have hdset : '|' ∉ (compute_hmac_hex mac secret room c).set ↑i ch := by
        intro hm
        rcases List.mem_or_eq_of_mem_set hm with h' | h'
        · exact hd h'
        · exact hbar h'.symm
      rw [verify_token_dissect mac secret room c _ hdset hcbar,
        if_neg (by simp [hc]), if_pos (Ne.symm (set_ne i.isLt hch))]

/-- A concrete digest oracle with no collision against room "r" for country
"france": it distinguishes the signed message `r:france` from every other. -/
def macC8 : Str → Str → List Nat := fun _ m => if m = str "r:france" then [0] else [1]

theorem macC8_coll_free : ∀ r' : Str, r' ≠ str "r" →
    compute_hmac_hex macC8 (str "s") r' (str "france")
      ≠ compute_hmac_hex macC8 (str "s") (str "r") (str "france") := by
  intro r' hne'
  have hrhs : compute_hmac_hex macC8 (str "s") (str "r") (str "france") = str "00" := by
    decide
  rw [hrhs]
  simp only [compute_hmac_hex, macC8]
  by_cases hm : r' ++ ':' :: str "france" = str "r:france"
  · exact absurd (List.append_cancel_right hm) hne'
  · rw [if_neg hm]
    decide

theorem claim_C8_witness :
    verify_token macC8 (str "s")
      ((str "r").set 0 'x' ++ '|' :: str "france" ++ '|'
        :: compute_hmac_hex macC8 (str "s") (str "r") (str "france")) = none :=
  (claim_C8 macC8 (str "s") (str "r") (str "france")
      (by decide) (by decide) (by decide) macC8_coll_free).1
    ⟨0, by decide⟩ 'x' (by decide)
